import Mathlib

/-!
Shallow embedding of the inode materialization, checkout and removal logic of
the eden user-space filesystem daemon (source files
src/eden/fs/inodes/TreeInode.cpp and src/eden/fs/inodes/EdenDispatcher.cpp),
together with theorems settling the specification claims about that code.

Machine integers (inode numbers, hashes, errno values, FUSE validity periods)
are modeled as Nat; none of the verified paths can overflow them.  The sorted
PathMap of directory entries is modeled as an association list kept in sorted
order by the insertion routine, exactly as the C++ PathMap keeps its vector
sorted.
-/

namespace EdenFs

/-- errno: no such file or directory (NotFound). -/
def ENOENT : Nat := 2

/-- errno: input/output error; internal bugs and exhausted remove retries
surface as EIO. -/
def EIO : Nat := 5

/-- errno: bad file descriptor; used by tryRemoveChild as the retry sentinel. -/
def EBADF : Nat := 9

/-- errno: operation not permitted. -/
def EPERM : Nat := 1

/-- File type of a tree entry / of the S_IF bits of an Entry's mode
(TreeEntry::getType and modeFromTreeEntryType). -/
inductive FType where
  | file
  | exec
  | symlink
  | dir
deriving DecidableEq

/-- One entry of an immutable source-control Tree: {name, type, hash}
(eden/fs/model/TreeEntry.h).  Tree entry lists are sorted by name. -/
structure TreeEntryM where
  name : String
  etype : FType
  hash : Nat
deriving DecidableEq

/-- An immutable source-control Tree (eden/fs/model/Tree.h): its content hash
plus the sorted entry list. -/
structure Tree where
  hash : Nat
  entries : List TreeEntryM
deriving DecidableEq

/-- In-memory state of one child entry of a TreeInode's Dir (TreeInode::Entry),
restricted to the fields the verified code paths read: the file-type bits of
its mode, whether an inode object is loaded, whether an inode number has been
assigned, whether the entry is materialized, and its source-control hash
(meaningful only when the entry is not materialized; materialized entries
carry no hash in the source). -/
structure Entry where
  ftype : FType
  loaded : Bool
  hasIno : Bool
  isMat : Bool
  hash : Nat
deriving DecidableEq

/-- TreeInode::Dir: the optional source-control tree hash (absent ⟺ this
directory is materialized), the sorted name → Entry map, and a timestamp
(collapsing atime/ctime/mtime, which the verified claims treat as a unit). -/
structure Dir where
  treeHash : Option Nat
  entries : List (String × Entry)
  ts : Nat
deriving DecidableEq

/-- PathMap::find: look up the entry with the given name. -/
def lookupAL {α : Type} : List (String × α) → String → Option α
  | [], _ => none
  | (k, v) :: rest, name => if k = name then some v else lookupAL rest name

/-- PathMap::emplace on the sorted association list: insert keeping sort
order; when the key is already present the map is left unchanged (emplace
does not overwrite). -/
def insertAL {α : Type} (name : String) (v : α) : List (String × α) → List (String × α)
  | [] => [(name, v)]
  | (k, w) :: rest =>
    if name < k then (name, v) :: (k, w) :: rest
    else if name = k then (k, w) :: rest
    else (k, w) :: insertAL name v rest

/-- Assignment through a PathMap iterator (entry = Entry{mode, hash}):
overwrite the value stored under an existing key. -/
def updateAL {α : Type} (name : String) (v : α) : List (String × α) → List (String × α)
  | [] => []
  | (k, w) :: rest => if k = name then (k, v) :: rest else (k, w) :: updateAL name v rest

/-- PathMap::erase: remove the entry with the given name. -/
def eraseAL {α : Type} (name : String) : List (String × α) → List (String × α)
  | [] => []
  | (k, w) :: rest => if k = name then rest else (k, w) :: eraseAL name rest

/-! ### Dispatch adapter (EdenDispatcher.cpp) -/

/-- The subset of the kernel's fuse_entry_out reply that EdenDispatcher::lookup
fills in; a value-initialized `fuse_entry_out entry = {}` has every field 0. -/
structure FuseEntryOut where
  nodeid : Nat
  generation : Nat
  attr_valid : Nat
  entry_valid : Nat
deriving DecidableEq

/-- Largest value of the 64-bit attr_valid / entry_valid fields
(std::numeric_limits of the field type). -/
def UINT64_MAX : Nat := 2 ^ 64 - 1

/-- EdenDispatcher::lookup's error translation (EdenDispatcher.cpp 99-113):
the inner lookup either produced a reply or failed with an errno; an ENOENT
failure is rewritten into a successful reply whose fields are zero except for
maximal attr_valid / entry_valid, and every other failure is rethrown. -/
def dispatcherLookup (res : Except Nat FuseEntryOut) : Except Nat FuseEntryOut :=
  match res with
  | Except.ok e => Except.ok e
  | Except.error e =>
    if e = ENOENT then
      Except.ok { nodeid := 0, generation := 0, attr_valid := UINT64_MAX, entry_valid := UINT64_MAX }
    else Except.error e

/-! ### getattr (TreeInode::getAttrLocked) -/

/-- Result of TreeInode::getAttrLocked restricted to the fields the verified
claim mentions. -/
structure StatAttr where
  stMode : Nat
  stIno : Nat
  stNlink : Nat
deriving DecidableEq

/-- The S_IFDIR file-type bit pattern (octal 040000). -/
def S_IFDIR : Nat := 16384

/-- TreeInode::getAttrLocked (TreeInode.cpp 180-200): mode = S_IFDIR | 0755,
st_ino = the inode number, and st_nlink = the number of entries plus the "."
and ".." links. -/
def getAttrLocked (ino : Nat) (contents : Dir) : StatAttr :=
  { stMode := S_IFDIR + 493
    stIno := ino
    stNlink := contents.entries.length + 2 }

/-- TreeInode::buildDirFromTree (TreeInode.cpp 724-743): build a Dir from an
immutable Tree; treeHash recorded, one unloaded / unnumbered / unmaterialized
entry per tree entry, timestamps set to the last checkout time. -/
def buildDirFromTree (t : Tree) (lastCheckoutTime : Nat) : Dir :=
  { treeHash := some t.hash
    entries := t.entries.map fun e =>
      (e.name, { ftype := e.etype, loaded := false, hasIno := false, isMat := false, hash := e.hash })
    ts := lastCheckoutTime }

/-- The root tree of the spec's lazy-load scenario: files a and b plus
subdirectory d. -/
def scenarioRootTree : Tree :=
  { hash := 10
    entries := [⟨"a", FType.file, 100⟩, ⟨"b", FType.file, 101⟩, ⟨"d", FType.dir, 102⟩] }

/-! ### getOrLoadChild entry lookup (TreeInode.cpp 207-278) -/

/-- Name of the reserved sentinel directory. -/
def kDotEdenName : String := ".eden"

/-- Outcome of the entry lookup step of TreeInode::getOrLoadChild. -/
inductive ChildLookup where
  | found (e : Entry)
  | sentinel
  | err (errno : Nat)
deriving DecidableEq

/-- The entry-table lookup at the top of TreeInode::getOrLoadChild
(TreeInode.cpp 213-224): a present entry is used; a missing entry resolves to
the mount's fixed .eden inode when the name is the reserved sentinel name and
this directory is not the root (getNodeId() != kRootNodeId); any other
missing name fails with ENOENT. -/
def getOrLoadChildEntry (contents : Dir) (isRoot : Bool) (name : String) : ChildLookup :=
  match lookupAL contents.entries name with
  | some e => ChildLookup.found e
  | none =>
    if name = kDotEdenName ∧ isRoot = false then ChildLookup.sentinel
    else ChildLookup.err ENOENT

/-! ### remove retry loop (TreeInode::removeImpl, TreeInode.cpp 1095-1183) -/

/-- kMaxRemoveRetries from TreeInode::removeImpl. -/
def kMaxRemoveRetries : Nat := 3

/-- The retry structure of TreeInode::removeImpl.  `attempts n` is the errno
result of the n-th call to tryRemoveChild (0 = success); removeImpl is first
entered with attemptNum = 1.  A zero result succeeds; a non-EBADF errno is
returned immediately; the EBADF sentinel (the named entry was replaced or is
no longer loaded) causes a reload-and-retry unless attemptNum already exceeds
kMaxRemoveRetries, in which case the operation fails with EIO. -/
def removeImpl (attempts : Nat → Nat) (attemptNum : Nat) : Except Nat Unit :=
  if attempts attemptNum = 0 then Except.ok ()
  else if attempts attemptNum ≠ EBADF then Except.error (attempts attemptNum)
  else if h : attemptNum > kMaxRemoveRetries then Except.error EIO
  else removeImpl attempts (attemptNum + 1)
termination_by kMaxRemoveRetries + 1 - attemptNum
decreasing_by
  simp only [kMaxRemoveRetries] at h ⊢
  omega

/-- Number of reload-and-retry rounds performed by removeImpl when started at
the given attempt number. -/
def removeReloads (attempts : Nat → Nat) (attemptNum : Nat) : Nat :=
  if attempts attemptNum = 0 then 0
  else if attempts attemptNum ≠ EBADF then 0
  else if h : attemptNum > kMaxRemoveRetries then 0
  else removeReloads attempts (attemptNum + 1) + 1
termination_by kMaxRemoveRetries + 1 - attemptNum
decreasing_by
  simp only [kMaxRemoveRetries] at h ⊢
  omega

/-! ### Checkout data model -/

/-- CheckoutMode: DRY_RUN, NORMAL or FORCE. -/
inductive CheckoutMode where
  | dryRun
  | normal
  | force
deriving DecidableEq

/-- CheckoutContext::isDryRun. -/
def isDryRun : CheckoutMode → Bool
  | CheckoutMode.dryRun => true
  | _ => false

/-- CheckoutContext::forceUpdate. -/
def forceUpdate : CheckoutMode → Bool
  | CheckoutMode.force => true
  | _ => false

/-- TreeInode::canShortCircuitCheckout (TreeInode.cpp 2226-2269), entered with
the directory's current treeHash.  Dry run: with a fromTree, short-circuit
exactly when treeHash matches it; with no fromTree, exactly when toTree is
absent or matches.  Otherwise: keep going unless treeHash matches toTree;
with no fromTree short-circuit, else require treeHash to match fromTree. -/
def canShortCircuitCheckout (mode : CheckoutMode) (treeHash : Nat)
    (fromTree toTree : Option Tree) : Bool :=
  if isDryRun mode then
    match fromTree with
    | some f => treeHash == f.hash
    | none =>
      match toTree with
      | none => true
      | some t => treeHash == t.hash
  else
    match toTree with
    | none => false
    | some t =>
      if treeHash ≠ t.hash then false
      else
        match fromTree with
        | none => true
        | some f => treeHash == f.hash

/-- Entry list of an optional Tree (an absent tree contributes no entries,
mirroring the emptyEntries vector in computeCheckoutActions). -/
def scmEntries : Option Tree → List TreeEntryM
  | none => []
  | some t => t.entries

/-- Directory entry freshly created from a source-control tree entry
(contents.entries.emplace(name, modeFromTreeEntryType(type), hash)): not
loaded, no inode number, not materialized. -/
def entryFromScm (e : TreeEntryM) : Entry :=
  { ftype := e.etype, loaded := false, hasIno := false, isMat := false, hash := e.hash }

/-- Conflict kinds recorded in the CheckoutContext. -/
inductive ConflictType where
  | missingRemoved
  | removedModified
  | untrackedAdded
  | modifiedModified
  | directoryNotEmpty
deriving DecidableEq

/-- A CheckoutAction recursing into the named child entry; needsLoad records
whether the child inode has to be loaded first. -/
structure CheckoutActionM where
  name : String
  needsLoad : Bool
deriving DecidableEq

/-- Output of processCheckoutEntry: the updated entry table, an optional
CheckoutAction, and the conflicts added to the checkout context. -/
structure PCOut where
  entries : List (String × Entry)
  action : Option CheckoutActionM
  conflicts : List (ConflictType × String)
deriving DecidableEq

/-- Old and new scm entries present with identical type and hash
(TreeInode.cpp 2362-2364). -/
def sameScmEntry : Option TreeEntryM → Option TreeEntryM → Bool
  | some o, some n => decide (o.etype = n.etype) && (o.hash == n.hash)
  | _, _ => false

/-- Conflict classification for an entry that is unloaded and has no inode
number (TreeInode.cpp 2436-2442): no old scm entry ⇒ UNTRACKED_ADDED; a hash
differing from the old scm entry ⇒ MODIFIED_MODIFIED; otherwise none. -/
def checkoutConflictType (e : Entry) : Option TreeEntryM → Option ConflictType
  | none => some ConflictType.untrackedAdded
  | some o => if e.hash ≠ o.hash then some ConflictType.modifiedModified else none

/-- The entry update at the end of processCheckoutEntry (TreeInode.cpp
2465-2471): erase the entry when the new tree has none, else overwrite it in
place with the new mode and hash. -/
def applyScmUpdate (contents : List (String × Entry)) (name : String)
    (newScm : Option TreeEntryM) (cs : List (ConflictType × String)) : PCOut :=
  match newScm with
  | none => ⟨eraseAL name contents, none, cs⟩
  | some n => ⟨updateAL name (entryFromScm n) contents, none, cs⟩

/-- processCheckoutEntry's branch for a name with no local entry
(TreeInode.cpp 2374-2410): a purely-added entry is inserted (outside dry
runs); a remove already applied locally is a MISSING_REMOVED conflict; a
local removal of a modified entry is a REMOVED_MODIFIED conflict, applied
anyway under force. -/
def pceAbsent (mode : CheckoutMode) (contents : List (String × Entry)) :
    Option TreeEntryM → Option TreeEntryM → PCOut
  | none, none => ⟨contents, none, []⟩
  | none, some n =>
    if isDryRun mode then ⟨contents, none, []⟩
    else ⟨insertAL n.name (entryFromScm n) contents, none, []⟩
  | some o, none => ⟨contents, none, [(ConflictType.missingRemoved, o.name)]⟩
  | some o, some n =>
    if forceUpdate mode then
      ⟨insertAL n.name (entryFromScm n) contents, none,
        [(ConflictType.removedModified, o.name)]⟩
    else ⟨contents, none, [(ConflictType.removedModified, o.name)]⟩

/-- processCheckoutEntry's branch for a present local entry (TreeInode.cpp
2412-2480): a loaded entry yields a recursing CheckoutAction; an entry with
an inode number yields a load-then-recurse CheckoutAction; otherwise the
conflict classification runs, directories load-and-recurse to enumerate
inner conflicts, non-force conflicts stop, dry runs stop, and finally the
entry is updated (erased or overwritten) in place. -/
def pcePresent (mode : CheckoutMode) (contents : List (String × Entry)) (name : String)
    (e : Entry) (oldScm newScm : Option TreeEntryM) : PCOut :=
  if e.loaded then ⟨contents, some ⟨name, false⟩, []⟩
  else if e.hasIno then ⟨contents, some ⟨name, true⟩, []⟩
  else
    match checkoutConflictType e oldScm with
    | some ct =>
      if e.ftype = FType.dir then ⟨contents, some ⟨name, true⟩, []⟩
      else if forceUpdate mode = false then ⟨contents, none, [(ct, name)]⟩
      else if isDryRun mode then ⟨contents, none, [(ct, name)]⟩
      else applyScmUpdate contents name newScm [(ct, name)]
    | none =>
      if isDryRun mode then ⟨contents, none, []⟩
      else applyScmUpdate contents name newScm []

/-- Body of processCheckoutEntry once the entry's name is known: identical
old/new scm entries are skipped outside force mode (TreeInode.cpp
2362-2368), then the local entry table decides between the absent-entry and
present-entry branches (2373-2374). -/
def pceCore (mode : CheckoutMode) (contents : List (String × Entry))
    (oldScm newScm : Option TreeEntryM) (name : String) : PCOut :=
  if forceUpdate mode = false ∧ sameScmEntry oldScm newScm = true then
    ⟨contents, none, []⟩
  else
    match lookupAL contents name with
    | none => pceAbsent mode contents oldScm newScm
    | some e => pcePresent mode contents name e oldScm newScm

/-- TreeInode::processCheckoutEntry (TreeInode.cpp 2343-2481).  At most one of
oldScm / newScm may be absent (the both-absent arm models the source's
DCHECK: it is never reached from the merge walk); the entry's name comes
from the old scm entry when present, else from the new one (2371-2372). -/
def processCheckoutEntry (mode : CheckoutMode) (contents : List (String × Entry))
    (oldScm newScm : Option TreeEntryM) : PCOut :=
  match oldScm, newScm with
  | none, none => ⟨contents, none, []⟩
  | some o, _ => pceCore mode contents (some o) newScm o.name
  | none, some n => pceCore mode contents none (some n) n.name

/-- Accumulated output of the checkout merge walk. -/
structure WalkOut where
  entries : List (String × Entry)
  actions : List CheckoutActionM
  conflicts : List (ConflictType × String)
deriving DecidableEq

/-- Prepend one processCheckoutEntry result onto the rest of the walk. -/
def stepWalk (r : PCOut) (w : WalkOut) : WalkOut :=
  ⟨w.entries, r.action.toList ++ w.actions, r.conflicts ++ w.conflicts⟩

/-- The sorted merge walk of computeCheckoutActions (TreeInode.cpp 2295-2340):
advance through the old and new scm entry lists in name order, calling
processCheckoutEntry with the present side(s) of each name. -/
def checkoutWalk (mode : CheckoutMode) (contents : List (String × Entry))
    (olds news : List TreeEntryM) : WalkOut :=
  match olds, news with
  | [], [] => ⟨contents, [], []⟩
  | o :: os, [] =>
    let r := processCheckoutEntry mode contents (some o) none
    stepWalk r (checkoutWalk mode r.entries os [])
  | [], n :: ns =>
    let r := processCheckoutEntry mode contents none (some n)
    stepWalk r (checkoutWalk mode r.entries [] ns)
  | o :: os, n :: ns =>
    if o.name < n.name then
      let r := processCheckoutEntry mode contents (some o) none
      stepWalk r (checkoutWalk mode r.entries os (n :: ns))
    else if n.name < o.name then
      let r := processCheckoutEntry mode contents none (some n)
      stepWalk r (checkoutWalk mode r.entries (o :: os) ns)
    else
      let r := processCheckoutEntry mode contents (some o) (some n)
      stepWalk r (checkoutWalk mode r.entries os ns)
termination_by olds.length + news.length
decreasing_by
  all_goals simp [List.length_cons]
  all_goals omega

/-- TreeInode::computeCheckoutActions (TreeInode.cpp 2271-2341): if the
directory still matches some source-control tree and canShortCircuitCheckout
allows, return with no actions, no conflicts and untouched contents;
otherwise merge-walk fromTree and toTree. -/
def computeCheckoutActions (mode : CheckoutMode) (dir : Dir)
    (fromTree toTree : Option Tree) : WalkOut :=
  match dir.treeHash with
  | some th =>
    if canShortCircuitCheckout mode th fromTree toTree then ⟨dir.entries, [], []⟩
    else checkoutWalk mode dir.entries (scmEntries fromTree) (scmEntries toTree)
  | none => checkoutWalk mode dir.entries (scmEntries fromTree) (scmEntries toTree)

/-! ### saveOverlayPostCheckout (TreeInode.cpp 2629-2771) -/

/-- The tryToDematerialize lambda (TreeInode.cpp 2648-2693): the directory may
drop its materialized state exactly when the new tree exists, the entry
counts agree, and walking the two sorted lists in parallel finds every child
unmaterialized with a hash equal to the scm entry's hash (the loop returns
none at the first materialized child or hash mismatch, else the tree hash).
Note that the loop compares hashes positionally and never compares names. -/
def tryToDematerialize (entries : List (String × Entry)) : Option Tree → Option Nat
  | none => none
  | some t =>
    if entries.length ≠ t.entries.length then none
    else if (entries.zip t.entries).all fun p => !p.1.2.isMat && (p.1.2.hash == p.2.hash) then
      some t.hash
    else none

/-- Modelled from the spec's words, for comparison with tryToDematerialize:
"the live entry list has exactly the same names and hashes as toTree's
entries, and no child entry is materialized". -/
def specSameNamesAndHashes (entries : List (String × Entry)) (t : Tree) : Bool :=
  (entries.length == t.entries.length) &&
    ((entries.zip t.entries).all fun p =>
      (p.1.1 == p.2.name) && !p.1.2.isMat && (p.1.2.hash == p.2.hash))

/-- Externally visible effects of TreeInode::saveOverlayPostCheckout.
informParent: some true = childMaterialized, some false = childDematerialized
(only when the materialization state changed, and skipped when deleteSelf
succeeds in removing the empty directory). -/
structure PostCheckoutResult where
  treeHash : Option Nat
  savedSelf : Bool
  removedOverlay : Bool
  informParent : Option Bool
  deleteSelf : Bool
deriving DecidableEq

/-- TreeInode::saveOverlayPostCheckout (TreeInode.cpp 2629-2771): a dry run
changes nothing; otherwise treeHash is recomputed by tryToDematerialize, a
directory that stays materialized saves its listing to the overlay, a
directory that is empty with no new tree attempts to remove itself, and on a
state change the parent is informed (childMaterialized / childDematerialized)
before a dematerialized directory's overlay data is removed. -/
def saveOverlayPostCheckout (mode : CheckoutMode) (dir : Dir) (tree : Option Tree) :
    PostCheckoutResult :=
  if isDryRun mode then ⟨dir.treeHash, false, false, none, false⟩
  else
    let newHash := tryToDematerialize dir.entries tree
    let stateChanged : Bool := decide (dir.treeHash ≠ newHash)
    let isMat := newHash.isNone
    { treeHash := newHash
      savedSelf := isMat
      removedOverlay := stateChanged && !isMat
      informParent := if stateChanged then some isMat else none
      deleteSelf := tree.isNone && dir.entries.isEmpty }

/-! ### create / unlink (TreeInode.cpp 745-836 and 1095-1260) -/

/-- The child entry recorded by TreeInode::create: materialized (the file's
bytes live in the newly created overlay file), inode number assigned, inode
object loaded. -/
def newFileEntry : Entry :=
  { ftype := FType.file, loaded := true, hasIno := true, isMat := true, hash := 0 }

/-- TreeInode::create restricted to its effect on the parent's Dir
(TreeInode.cpp 745-836): materialize self (treeHash cleared), insert the new
materialized entry under the name, update ctime/mtime, save the listing. -/
def createOp (dir : Dir) (name : String) (now : Nat) : Dir :=
  { treeHash := none
    entries := insertAL name newFileEntry dir.entries
    ts := now }

/-- TreeInode::removeImpl → tryRemoveChild for a loaded file child
(TreeInode.cpp 1095-1260): self is materialized first; removal of anything
directly inside the reserved .eden sentinel directory is refused with EPERM;
a name that no longer resolves fails with ENOENT; otherwise the entry is
erased, timestamps updated and the listing saved. -/
def unlinkOp (isDotEden : Bool) (dir : Dir) (name : String) (now : Nat) :
    Except Nat Dir :=
  if isDotEden then Except.error EPERM
  else
    match lookupAL dir.entries name with
    | none => Except.error ENOENT
    | some _ => Except.ok { treeHash := none, entries := eraseAL name dir.entries, ts := now }

/-! ### Overlay write ordering during materialization state changes
(TreeInode.cpp 587-722 and 2629-2771)

The persisted overlay state is modeled as two finite sets of inode numbers:
the inodes that have overlay data on disk, and the inodes whose parent's
persisted listing marks them materialized.  Each saveOverlayDir /
removeOverlayData call of the source becomes one atomic event; a crash may
cut an operation's event sequence at any prefix. -/

/-- One overlay write performed during a materialization state change.
persistSelf n: saveOverlayDir(n, contents of n) while n's own child marks are
unchanged (TreeInode::materialize saving itself).  persistMark p c:
childMaterialized on p — p's listing now marks child c materialized and is
saved.  persistUnmark p c: childDematerialized on p — p's listing now marks
child c unmaterialized (recording its scm hash) and is saved.  removeSelf n:
removeOverlayData(n). -/
inductive OvEvent where
  | persistSelf (n : Nat)
  | persistMark (p c : Nat)
  | persistUnmark (p c : Nat)
  | removeSelf (n : Nat)
deriving DecidableEq

/-- Persisted overlay state: which inodes have overlay data, and which inodes
are marked materialized in their parent's persisted listing (in the inode
tree each inode has at most one parent, so the mark is indexed by the
child). -/
structure OverlayState where
  hasOverlay : List Nat
  marked : List Nat
deriving DecidableEq

/-- Add an inode number to a set. -/
def setAdd (n : Nat) (l : List Nat) : List Nat := if n ∈ l then l else n :: l

/-- Remove an inode number from a set. -/
def setDel (n : Nat) (l : List Nat) : List Nat := l.filter fun m => m ≠ n

/-- Effect of one overlay write on the persisted state. -/
def applyEvent (s : OverlayState) : OvEvent → OverlayState
  | OvEvent.persistSelf n => { s with hasOverlay := setAdd n s.hasOverlay }
  | OvEvent.persistMark p c =>
    { hasOverlay := setAdd p s.hasOverlay, marked := setAdd c s.marked }
  | OvEvent.persistUnmark p c =>
    { hasOverlay := setAdd p s.hasOverlay, marked := setDel c s.marked }
  | OvEvent.removeSelf n => { s with hasOverlay := setDel n s.hasOverlay }

/-- Run a sequence of overlay writes. -/
def runEvents (s : OverlayState) (es : List OvEvent) : OverlayState :=
  es.foldl applyEvent s

/-- The materialization/overlay safety invariant: every inode whose parent's
persisted listing marks it materialized has overlay data on disk.  (The
harmless converse — overlay data present but parent not yet updated — is
explicitly allowed by the source comments.) -/
def overlayInv (s : OverlayState) : Bool :=
  s.marked.all fun c => decide (c ∈ s.hasOverlay)

/-- The recursive childMaterialized walk along an ancestor chain: starting
from a freshly persisted child c, each ancestor in turn marks the node below
it materialized and saves its own listing (TreeInode.cpp 647-678). -/
def markChain : Nat → List Nat → List OvEvent
  | _, [] => []
  | c, p :: ps => OvEvent.persistMark p c :: markChain p ps

/-- Overlay writes of TreeInode::materialize (TreeInode.cpp 587-642): save our
own Dir first, then walk up the ancestor chain via childMaterialized. -/
def materializeTrace (d : Nat) (ancestors : List Nat) : List OvEvent :=
  OvEvent.persistSelf d :: markChain d ancestors

/-- Overlay writes of saveOverlayPostCheckout when the directory remains (or
becomes) materialized and its state changed: save our own listing under the
contents lock, then inform the ancestors via childMaterialized. -/
def postCheckoutMatTrace (d : Nat) (ancestors : List Nat) : List OvEvent :=
  OvEvent.persistSelf d :: markChain d ancestors

/-- Overlay writes of saveOverlayPostCheckout when the directory
dematerializes: the parent p records us dematerialized (childDematerialized
saves p's listing), the materialization of p propagates further up via
childMaterialized, and only after the parent was updated is our own overlay
data removed (TreeInode.cpp 2754-2769). -/
def postCheckoutDematTrace (d p : Nat) (ancestors : List Nat) : List OvEvent :=
  OvEvent.persistUnmark p d :: (markChain p ancestors ++ [OvEvent.removeSelf d])

/-- A materialization state change operation, with the inode numbers of the
directory itself and of the ancestor chain that the recursive
parent-notification walk actually updates (the walk stops at the root, at an
unlinked inode, or at an ancestor that is already materialized with the
child already marked, so the chain may be any suffix-truncated ancestor
list). -/
inductive MatOp where
  | materialize (d : Nat) (ancestors : List Nat)
  | postCheckoutMat (d : Nat) (ancestors : List Nat)
  | postCheckoutDemat (d p : Nat) (ancestors : List Nat)
deriving DecidableEq

/-- Overlay writes of one operation. -/
def MatOp.trace : MatOp → List OvEvent
  | MatOp.materialize d ps => materializeTrace d ps
  | MatOp.postCheckoutMat d ps => postCheckoutMatTrace d ps
  | MatOp.postCheckoutDemat d p ps => postCheckoutDematTrace d p ps

/-- Structural well-formedness of an operation in the inode tree: a directory
is never its own ancestor. -/
def MatOp.wf : MatOp → Bool
  | MatOp.materialize _ _ => true
  | MatOp.postCheckoutMat _ _ => true
  | MatOp.postCheckoutDemat d p ps => (d != p) && decide (d ∉ ps)

/-- Concatenated overlay writes of a sequence of operations. -/
def opsTrace (ops : List MatOp) : List OvEvent :=
  (ops.map MatOp.trace).flatten

/-! ### childMaterialized's in-memory chain update (TreeInode.cpp 647-678) -/

/-- One directory on the ancestor chain of a freshly materialized child, as
childMaterialized sees it: its inode number, whether the directory itself is
materialized, and whether its entry for the next node down the chain is
marked materialized (with which inode number). -/
structure DirNode where
  ino : Nat
  selfMat : Bool
  entryMat : Bool
  entryIno : Option Nat
deriving DecidableEq

/-- The recursive childMaterialized walk, bottom-up along the ancestor chain
(the chain covers exactly the linked ancestors up to the root).  cIno is the
inode number of the freshly materialized child.  If this directory is
already materialized with the child entry already marked there is nothing to
do and the walk stops; otherwise the entry is marked materialized with the
child's inode number, the directory itself is marked materialized, its
listing is persisted (the second component collects the persisted inode
numbers in order), and the walk recurses to the parent. -/
def childMaterialized (cIno : Nat) : List DirNode → List DirNode × List Nat
  | [] => ([], [])
  | n :: rest =>
    if n.selfMat && n.entryMat then (n :: rest, [])
    else
      let n2 : DirNode := { ino := n.ino, selfMat := true, entryMat := true, entryIno := some cIno }
      let r := childMaterialized n.ino rest
      (n2 :: r.1, n.ino :: r.2)

/-- Every directory on the chain is materialized. -/
def allMat (l : List DirNode) : Bool :=
  l.all fun n => n.selfMat

/-- Materialization monotonicity along an ancestor chain (listed bottom-up):
whenever a directory is materialized, every ancestor above it is too. -/
def chainMono : List DirNode → Bool
  | [] => true
  | n :: rest => (!n.selfMat || allMat rest) && chainMono rest

/-! ## Theorems

First the helper lemmas about the association-list operations, the retry
loop, and the overlay event semantics; then one theorem (plus witness or
counterexample) per specification claim. -/

theorem lookupAL_insertAL_self {α : Type} (name : String) (v : α) :
    ∀ l : List (String × α), lookupAL l name = none →
      lookupAL (insertAL name v l) name = some v := by
  intro l
  induction l with
  | nil => intro _; simp [insertAL, lookupAL]
  | cons hd tl ih =>
    intro hmiss
    obtain ⟨k, w⟩ := hd
    simp only [lookupAL] at hmiss
    by_cases hk : k = name
    · simp [hk] at hmiss
    · simp only [insertAL]
      by_cases hlt : name < k
      · simp [hlt, lookupAL]
      · simp only [if_neg hlt]
        have hne : ¬(name = k) := fun h => hk h.symm
        simp only [if_neg hne, lookupAL, if_neg hk]
        exact ih (by simpa [lookupAL, hk] using hmiss)

theorem eraseAL_insertAL {α : Type} (name : String) (v : α) :
    ∀ l : List (String × α), lookupAL l name = none →
      eraseAL name (insertAL name v l) = l := by
  intro l
  induction l with
  | nil => intro _; simp [insertAL, eraseAL]
  | cons hd tl ih =>
    intro hmiss
    obtain ⟨k, w⟩ := hd
    simp only [lookupAL] at hmiss
    by_cases hk : k = name
    · simp [hk] at hmiss
    · simp only [insertAL]
      by_cases hlt : name < k
      · simp [hlt, eraseAL, hk]
      · have hne : ¬(name = k) := fun h => hk h.symm
        simp only [if_neg hlt, if_neg hne, eraseAL, if_neg hk]
        rw [ih (by simpa [lookupAL, hk] using hmiss)]

theorem lookupAL_insertAL_ne {α : Type} (name x : String) (v : α) (hne : name ≠ x) :
    ∀ l : List (String × α), lookupAL (insertAL name v l) x = lookupAL l x := by
  intro l
  induction l with
  | nil => simp [insertAL, lookupAL, hne]
  | cons hd tl ih =>
    obtain ⟨k, w⟩ := hd
    simp only [insertAL]
    by_cases hlt : name < k
    · simp [hlt, lookupAL, hne]
    · by_cases heq : name = k
      · simp [hlt, heq, lookupAL]
      · simp only [if_neg hlt, if_neg heq, lookupAL]
        by_cases hk : k = x
        · simp [hk]
        · simp [hk, ih]

theorem lookupAL_updateAL_ne {α : Type} (name x : String) (v : α) (hne : name ≠ x) :
    ∀ l : List (String × α), lookupAL (updateAL name v l) x = lookupAL l x := by
  intro l
  induction l with
  | nil => simp [updateAL]
  | cons hd tl ih =>
    obtain ⟨k, w⟩ := hd
    simp only [updateAL]
    by_cases hk : k = name
    · subst hk
      simp [lookupAL, hne]
    · simp only [if_neg hk, lookupAL]
      by_cases hx : k = x
      · simp [hx]
      · simp [hx, ih]

theorem lookupAL_eraseAL_ne {α : Type} (name x : String) (hne : name ≠ x) :
    ∀ l : List (String × α), lookupAL (eraseAL name l) x = lookupAL l x := by
  intro l
  induction l with
  | nil => simp [eraseAL]
  | cons hd tl ih =>
    obtain ⟨k, w⟩ := hd
    simp only [eraseAL]
    by_cases hk : k = name
    · subst hk
      simp [lookupAL, hne]
    · simp only [if_neg hk, lookupAL]
      by_cases hx : k = x
      · simp [hx]
      · simp [hx, ih]

theorem removeReloads_stop (a : Nat → Nat) (n : Nat) (h : n > kMaxRemoveRetries) :
    removeReloads a n = 0 := by
  rw [removeReloads]
  simp [h]

theorem removeReloads_step (a : Nat → Nat) (n : Nat) :
    removeReloads a n ≤ removeReloads a (n + 1) + 1 := by
  rw [removeReloads]
  split
  · exact Nat.zero_le _
  · split
    · exact Nat.zero_le _
    · split
      · exact Nat.zero_le _
      · exact Nat.le_refl _

/-- C7: when a kernel lookup fails with NotFound (ENOENT), the dispatch
adapter replies with success rather than an error, carrying inode number 0
and the maximum-allowed attr and entry validity periods so the kernel can
cache the negative result; any other lookup failure propagates unchanged and
successful lookups pass through. -/
theorem dispatcherLookup_negative_caching :
    dispatcherLookup (Except.error ENOENT) =
      Except.ok { nodeid := 0, generation := 0, attr_valid := UINT64_MAX,
                  entry_valid := UINT64_MAX }
    ∧ (∀ e : Nat, e ≠ ENOENT → dispatcherLookup (Except.error e) = Except.error e)
    ∧ (∀ out : FuseEntryOut, dispatcherLookup (Except.ok out) = Except.ok out) := by
  refine ⟨rfl, ?_, fun out => rfl⟩
  intro e he
  simp [dispatcherLookup, he]

/-- Witness for C7: the non-ENOENT errno EPERM = 1 propagates unchanged. -/
theorem dispatcherLookup_negative_caching_witness :
    (1 : Nat) ≠ ENOENT ∧ dispatcherLookup (Except.error 1) = Except.error 1 :=
  ⟨by decide, dispatcherLookup_negative_caching.2.1 1 (by decide)⟩

/-- C8 counterexample: on a freshly mounted root built from a source-control
tree with two files a, b and one subdirectory d, getattr reports
st_nlink = 5 (three entries plus the "." and ".." links), not 4 as the claim
states. -/
theorem getAttrLocked_nlink_counterexample :
    (getAttrLocked 1 (buildDirFromTree scenarioRootTree 0)).stNlink = 5 ∧
    (getAttrLocked 1 (buildDirFromTree scenarioRootTree 0)).stNlink ≠ 4 := by
  constructor <;> decide

/-- C8 (amended): getattr on a directory reports st_nlink as the number of
entries plus the "." and ".." links; on a freshly mounted root whose
source-control tree contains two files a, b and one subdirectory d this is
3 + 2 = 5. -/
theorem getAttrLocked_nlink :
    (∀ (ino : Nat) (contents : Dir),
      (getAttrLocked ino contents).stNlink = contents.entries.length + 2)
    ∧ (getAttrLocked 1 (buildDirFromTree scenarioRootTree 0)).stNlink = 5 :=
  ⟨fun _ _ => rfl, by decide⟩

/-- C6 counterexample: with no ".eden" entry present in the entry table, the
sentinel lookup succeeds at a NON-root directory and fails with ENOENT at
the root — the opposite of the claim, which places the exception at the
root. -/
theorem getOrLoadChild_sentinel_counterexample :
    getOrLoadChildEntry { treeHash := some 1, entries := [], ts := 0 } true kDotEdenName
      = ChildLookup.err ENOENT
    ∧ getOrLoadChildEntry { treeHash := some 1, entries := [], ts := 0 } false kDotEdenName
      = ChildLookup.sentinel := by
  constructor <;> rfl

/-- C6 (amended): getOrLoadChild on a name that has no entry in the
directory's entry table fails with NotFound (ENOENT), with one exception:
the reserved sentinel child name, looked up at any NON-root directory,
resolves to the fixed reserved inode; at the root a missing sentinel name
fails NotFound like any other name. -/
theorem getOrLoadChild_missing_entry (contents : Dir) (isRoot : Bool) (name : String)
    (hmiss : lookupAL contents.entries name = none) :
    getOrLoadChildEntry contents isRoot name =
      (if name = kDotEdenName ∧ isRoot = false then ChildLookup.sentinel
       else ChildLookup.err ENOENT) := by
  unfold getOrLoadChildEntry
  rw [hmiss]

/-- Witness for C6 (amended): a missing ordinary name at a non-root directory
fails with ENOENT. -/
theorem getOrLoadChild_missing_entry_witness :
    lookupAL ({ treeHash := some 1, entries := [], ts := 0 } : Dir).entries "nope" = none
    ∧ getOrLoadChildEntry { treeHash := some 1, entries := [], ts := 0 } false "nope"
        = ChildLookup.err ENOENT := by
  refine ⟨rfl, ?_⟩
  rw [getOrLoadChild_missing_entry { treeHash := some 1, entries := [], ts := 0 } false
    "nope" rfl]
  rfl

/-- C5: a remove that hits the EBADF retry sentinel reloads the child and
retries at most kMaxRemoveRetries = 3 times; if the sentinel persists after
the retry limit the operation fails with EIO; and any other errno from the
removal attempt is returned immediately. -/
theorem removeImpl_retry_bound :
    (∀ (attempts : Nat → Nat) (n : Nat), attempts n ≠ 0 → attempts n ≠ EBADF →
      removeImpl attempts n = Except.error (attempts n))
    ∧ (∀ attempts : Nat → Nat, (∀ k, attempts k = EBADF) →
      removeImpl attempts 1 = Except.error EIO)
    ∧ (∀ attempts : Nat → Nat, removeReloads attempts 1 ≤ kMaxRemoveRetries) := by
  refine ⟨?_, ?_, ?_⟩
  · intro attempts n h0 hb
    rw [removeImpl]
    simp [h0, hb]
  · intro attempts h
    have hb : (EBADF : Nat) ≠ 0 := by decide
    rw [removeImpl]
    simp only [h 1, hb, if_false, ne_eq, not_true_eq_false, if_false,
      gt_iff_lt, kMaxRemoveRetries]
    norm_num
    rw [removeImpl]
    simp only [h 2, hb, if_false, ne_eq, not_true_eq_false, if_false,
      gt_iff_lt, kMaxRemoveRetries]
    norm_num
    rw [removeImpl]
    simp only [h 3, hb, if_false, ne_eq, not_true_eq_false, if_false,
      gt_iff_lt, kMaxRemoveRetries]
    norm_num
    rw [removeImpl]
    simp only [h 4, hb, if_false, ne_eq, not_true_eq_false, if_false,
      gt_iff_lt, kMaxRemoveRetries]
    norm_num
  · intro attempts
    have h4 : removeReloads attempts 4 = 0 :=
      removeReloads_stop attempts 4 (by decide)
    have h3 := removeReloads_step attempts 3
    have h2 := removeReloads_step attempts 2
    have h1 := removeReloads_step attempts 1
    norm_num at h1 h2 h3
    simp only [kMaxRemoveRetries]
    omega

/-- Witness for C5: an immediate non-sentinel failure (errno 2) is returned
as-is, a persistent sentinel gives EIO, and the reload count stays within
the bound. -/
theorem removeImpl_retry_bound_witness :
    ((fun _ : Nat => 2) 1 ≠ 0)
    ∧ removeImpl (fun _ => 2) 1 = Except.error 2
    ∧ removeImpl (fun _ => 9) 1 = Except.error EIO
    ∧ removeReloads (fun _ => 9) 1 ≤ kMaxRemoveRetries :=
  ⟨by decide,
   removeImpl_retry_bound.1 (fun _ => 2) 1 (by decide) (by decide),
   removeImpl_retry_bound.2.1 (fun _ => 9) (fun _ => rfl),
   removeImpl_retry_bound.2.2 (fun _ => 9)⟩

/-- C9 counterexample: in the reserved .eden sentinel directory, create
succeeds but the following unlink is refused with EPERM
(TreeInode.cpp 1193-1196), leaving the created entry behind — the
create-then-unlink round trip does not restore the listing there. -/
theorem create_unlink_counterexample :
    unlinkOp true (createOp { treeHash := some 3, entries := [], ts := 0 } "x" 5) "x" 6
      = Except.error EPERM
    ∧ (createOp { treeHash := some 3, entries := [], ts := 0 } "x" 5).entries
        ≠ ({ treeHash := some 3, entries := [], ts := 0 } : Dir).entries := by
  exact ⟨rfl, by decide⟩

/-- C9 (amended): for every directory other than the reserved .eden sentinel
directory and every name not already present in it, create(name) followed by
unlink(name) restores the entry listing exactly (only the timestamps, and
the directory's own materialization, change). -/
theorem create_unlink_roundtrip (dir : Dir) (name : String) (now now2 : Nat)
    (hmiss : lookupAL dir.entries name = none) :
    unlinkOp false (createOp dir name now) name now2
      = Except.ok { treeHash := none, entries := dir.entries, ts := now2 } := by
  unfold unlinkOp createOp
  rw [lookupAL_insertAL_self name newFileEntry dir.entries hmiss,
    eraseAL_insertAL name newFileEntry dir.entries hmiss]
  rfl

/-- Witness for C9 (amended): a fresh name in an ordinary one-entry directory
round-trips. -/
theorem create_unlink_roundtrip_witness :
    lookupAL ({ treeHash := some 3, entries := [("a", newFileEntry)], ts := 0 } : Dir).entries
      "b" = none
    ∧ unlinkOp false
        (createOp { treeHash := some 3, entries := [("a", newFileEntry)], ts := 0 } "b" 5)
        "b" 6
      = Except.ok { treeHash := none, entries := [("a", newFileEntry)], ts := 6 } :=
  ⟨by decide,
   create_unlink_roundtrip { treeHash := some 3, entries := [("a", newFileEntry)], ts := 0 }
     "b" 5 6 (by decide)⟩

/-- C4: for a tree inode that is not materialized, the checkout short-circuit
rules are: dry run with a fromTree short-circuits exactly when treeHash
matches the fromTree hash; dry run without a fromTree short-circuits exactly
when toTree is absent or matches; a normal update whose treeHash already
matches toTree additionally requires the fromTree hash to match (and never
short-circuits when treeHash differs from toTree or toTree is absent); and
when the short circuit applies, computeCheckoutActions returns with no
actions, no conflicts and untouched contents. -/
theorem canShortCircuit_rules :
    (∀ (th : Nat) (f : Tree) (toT : Option Tree),
      canShortCircuitCheckout CheckoutMode.dryRun th (some f) toT = (th == f.hash))
    ∧ (∀ th : Nat, canShortCircuitCheckout CheckoutMode.dryRun th none none = true)
    ∧ (∀ (th : Nat) (t : Tree),
      canShortCircuitCheckout CheckoutMode.dryRun th none (some t) = (th == t.hash))
    ∧ (∀ (th : Nat) (t f : Tree), th = t.hash →
      canShortCircuitCheckout CheckoutMode.normal th (some f) (some t) = (th == f.hash))
    ∧ (∀ (th : Nat) (t : Tree) (fromT : Option Tree), th ≠ t.hash →
      canShortCircuitCheckout CheckoutMode.normal th fromT (some t) = false)
    ∧ (∀ (th : Nat) (fromT : Option Tree),
      canShortCircuitCheckout CheckoutMode.normal th fromT none = false)
    ∧ (∀ (mode : CheckoutMode) (dir : Dir) (fromT toT : Option Tree) (th : Nat),
      dir.treeHash = some th → canShortCircuitCheckout mode th fromT toT = true →
      computeCheckoutActions mode dir fromT toT = ⟨dir.entries, [], []⟩) := by
  refine ⟨fun th f toT => rfl, fun th => rfl, fun th t => rfl, ?_, ?_, ?_, ?_⟩
  · intro th t f h
    simp [canShortCircuitCheckout, isDryRun, h]
  · intro th t fromT h
    simp [canShortCircuitCheckout, isDryRun, h]
  · intro th fromT
    simp [canShortCircuitCheckout, isDryRun]
  · intro mode dir fromT toT th hth hcan
    unfold computeCheckoutActions
    rw [hth]
    simp [hcan]

/-- Witness for C4: a normal checkout of an unmodified directory whose hash
matches both trees short-circuits with no actions and no conflicts. -/
theorem canShortCircuit_rules_witness :
    ((5 : Nat) = (Tree.mk 5 []).hash)
    ∧ canShortCircuitCheckout CheckoutMode.normal 5 (some (Tree.mk 5 []))
        (some (Tree.mk 5 [])) = ((5 : Nat) == (Tree.mk 5 []).hash)
    ∧ ({ treeHash := some 5, entries := [], ts := 0 } : Dir).treeHash = some 5
    ∧ computeCheckoutActions CheckoutMode.normal { treeHash := some 5, entries := [], ts := 0 }
        (some (Tree.mk 5 [])) (some (Tree.mk 5 [])) = ⟨[], [], []⟩ :=
  ⟨rfl,
   canShortCircuit_rules.2.2.2.1 5 (Tree.mk 5 []) (Tree.mk 5 []) rfl,
   rfl,
   canShortCircuit_rules.2.2.2.2.2.2 CheckoutMode.normal
     { treeHash := some 5, entries := [], ts := 0 }
     (some (Tree.mk 5 [])) (some (Tree.mk 5 [])) 5 rfl (by decide)⟩

/-- C3 counterexample: a non-dry-run saveOverlayPostCheckout dematerializes
(sets treeHash to toTree's hash) on a directory whose single live entry has
the same hash as toTree's single entry but a DIFFERENT name — the source's
tryToDematerialize loop compares entry counts and hashes positionally and
never compares names, so "exactly the same names and hashes" is not the
condition the code implements (no child is materialized here, so the
difference is precisely the name comparison). -/
theorem saveOverlayPostCheckout_counterexample :
    (saveOverlayPostCheckout CheckoutMode.normal
      { treeHash := none,
        entries := [("x", { ftype := FType.file, loaded := false, hasIno := false,
                            isMat := false, hash := 5 })],
        ts := 0 }
      (some { hash := 1, entries := [⟨"y", FType.file, 5⟩] })).treeHash = some 1
    ∧ specSameNamesAndHashes
        [("x", { ftype := FType.file, loaded := false, hasIno := false,
                 isMat := false, hash := 5 })]
        { hash := 1, entries := [⟨"y", FType.file, 5⟩] } = false
    ∧ ([("x", ({ ftype := FType.file, loaded := false, hasIno := false,
                 isMat := false, hash := 5 } : Entry))].all fun p => !p.2.isMat) = true := by
  refine ⟨by decide, by decide, by decide⟩

/-- C3 (amended): after a non-dry-run checkout, saveOverlayPostCheckout
dematerializes (sets treeHash = toTree's hash) if and only if toTree exists,
the live entry list has the same number of entries with pairwise equal
hashes in sorted order (names are not compared), and no child entry is
materialized; when toTree is absent the directory stays materialized; and
whenever the directory remains materialized its listing is persisted to the
overlay (savedSelf), while a dematerialized directory's listing is not
re-saved. -/
theorem saveOverlayPostCheckout_dematerialize :
    (∀ (mode : CheckoutMode) (dir : Dir) (t : Tree), isDryRun mode = false →
      ((saveOverlayPostCheckout mode dir (some t)).treeHash = some t.hash ↔
        (dir.entries.length = t.entries.length ∧
          ((dir.entries.zip t.entries).all fun p =>
            !p.1.2.isMat && (p.1.2.hash == p.2.hash)) = true)))
    ∧ (∀ (mode : CheckoutMode) (dir : Dir), isDryRun mode = false →
      (saveOverlayPostCheckout mode dir none).treeHash = none)
    ∧ (∀ (mode : CheckoutMode) (dir : Dir) (tr : Option Tree), isDryRun mode = false →
      (saveOverlayPostCheckout mode dir tr).savedSelf
        = (saveOverlayPostCheckout mode dir tr).treeHash.isNone) := by
  refine ⟨?_, ?_, ?_⟩
  · intro mode dir t h
    simp only [saveOverlayPostCheckout, h, Bool.false_eq_true, if_false]
    simp only [tryToDematerialize]
    split_ifs with h1 h2
    · constructor
      · intro he; exact he.elim
      · rintro ⟨he, _⟩; exact absurd he h1
    · push_neg at h1
      constructor
      · intro _; exact ⟨h1, h2⟩
      · intro _; rfl
    · constructor
      · intro he; exact he.elim
      · rintro ⟨_, hall⟩; exact absurd hall h2
  · intro mode dir h
    simp [saveOverlayPostCheckout, h, tryToDematerialize]
  · intro mode dir tr h
    simp [saveOverlayPostCheckout, h]

/-- Witness for C3 (amended): a directory whose single unmaterialized entry
matches the tree's entry hash dematerializes to the tree's hash. -/
theorem saveOverlayPostCheckout_dematerialize_witness :
    isDryRun CheckoutMode.normal = false
    ∧ ((saveOverlayPostCheckout CheckoutMode.normal
        { treeHash := none,
          entries := [("x", { ftype := FType.file, loaded := false, hasIno := false,
                              isMat := false, hash := 5 })],
          ts := 0 }
        (some { hash := 1, entries := [⟨"x", FType.file, 5⟩] })).treeHash
          = some ({ hash := 1, entries := [⟨"x", FType.file, 5⟩] } : Tree).hash ↔
        (([("x", ({ ftype := FType.file, loaded := false, hasIno := false,
                    isMat := false, hash := 5 } : Entry))].length
            = [(⟨"x", FType.file, 5⟩ : TreeEntryM)].length) ∧
          (([("x", ({ ftype := FType.file, loaded := false, hasIno := false,
                      isMat := false, hash := 5 } : Entry))].zip
              [(⟨"x", FType.file, 5⟩ : TreeEntryM)]).all fun p =>
            !p.1.2.isMat && (p.1.2.hash == p.2.hash)) = true)) :=
  ⟨rfl,
   saveOverlayPostCheckout_dematerialize.1 CheckoutMode.normal
     { treeHash := none,
       entries := [("x", { ftype := FType.file, loaded := false, hasIno := false,
                           isMat := false, hash := 5 })],
       ts := 0 }
     { hash := 1, entries := [⟨"x", FType.file, 5⟩] } rfl⟩

theorem overlayInv_iff (s : OverlayState) :
    overlayInv s = true ↔ ∀ c ∈ s.marked, c ∈ s.hasOverlay := by
  simp [overlayInv, List.all_eq_true]

theorem mem_setAdd {x n : Nat} {l : List Nat} : x ∈ setAdd n l ↔ x = n ∨ x ∈ l := by
  unfold setAdd
  split
  · rename_i h
    constructor
    · exact fun hx => Or.inr hx
    · rintro (rfl | hx)
      · exact h
      · exact hx
  · simp [List.mem_cons]

theorem mem_setDel {x n : Nat} {l : List Nat} : x ∈ setDel n l ↔ x ∈ l ∧ x ≠ n := by
  simp [setDel, List.mem_filter]

/-- Marking further ancestors preserves the overlay invariant at every crash
prefix, provided the chain's starting child already has its overlay data on
disk. -/
theorem markChain_prefix_inv :
    ∀ (ps : List Nat) (c : Nat) (s : OverlayState), overlayInv s = true →
      c ∈ s.hasOverlay → ∀ k : Nat,
      overlayInv (runEvents s ((markChain c ps).take k)) = true := by
  intro ps
  induction ps with
  | nil =>
    intro c s hinv _ k
    simp [markChain, runEvents, hinv]
  | cons p ps ih =>
    intro c s hinv hc k
    cases k with
    | zero => simpa [runEvents] using hinv
    | succ k =>
      simp only [markChain, List.take_succ_cons, runEvents, List.foldl_cons]
      have hinv' : overlayInv (applyEvent s (OvEvent.persistMark p c)) = true := by
        rw [overlayInv_iff]
        intro y hy
        simp only [applyEvent] at hy ⊢
        rcases mem_setAdd.mp hy with rfl | hy'
        · exact mem_setAdd.mpr (Or.inr hc)
        · exact mem_setAdd.mpr (Or.inr ((overlayInv_iff s).mp hinv y hy'))
      have hp : p ∈ (applyEvent s (OvEvent.persistMark p c)).hasOverlay := by
        simp only [applyEvent]
        exact mem_setAdd.mpr (Or.inl rfl)
      exact ih p (applyEvent s (OvEvent.persistMark p c)) hinv' hp k

/-- Running a full ancestor-marking chain preserves the invariant. -/
theorem markChain_inv :
    ∀ (ps : List Nat) (c : Nat) (s : OverlayState), overlayInv s = true →
      c ∈ s.hasOverlay →
      overlayInv (runEvents s (markChain c ps)) = true := by
  intro ps c s hinv hc
  have h := markChain_prefix_inv ps c s hinv hc (markChain c ps).length
  rwa [List.take_length] at h

/-- The marking chain only ever marks the chain's own nodes. -/
theorem markChain_marked_subset :
    ∀ (ps : List Nat) (c : Nat) (s : OverlayState) (x : Nat),
      x ∈ (runEvents s (markChain c ps)).marked → x ∈ s.marked ∨ x = c ∨ x ∈ ps := by
  intro ps
  induction ps with
  | nil =>
    intro c s x hx
    simp only [markChain, runEvents, List.foldl_nil] at hx
    exact Or.inl hx
  | cons p ps ih =>
    intro c s x hx
    simp only [markChain, runEvents, List.foldl_cons] at hx
    rcases ih p (applyEvent s (OvEvent.persistMark p c)) x hx with hy | hy | hy
    · simp only [applyEvent] at hy
      rcases mem_setAdd.mp hy with rfl | hy'
      · exact Or.inr (Or.inl rfl)
      · exact Or.inl hy'
    · exact Or.inr (Or.inr (by simp [hy]))
    · exact Or.inr (Or.inr (by simp [hy]))

/-- Every crash prefix of a single materialization state change preserves the
overlay invariant. -/
theorem matOp_prefix_inv (op : MatOp) (s : OverlayState)
    (hinv : overlayInv s = true) (hwf : MatOp.wf op = true) (k : Nat) :
    overlayInv (runEvents s ((MatOp.trace op).take k)) = true := by
  have selfStep : ∀ (d : Nat) (ps : List Nat) (k : Nat),
      overlayInv (runEvents s ((OvEvent.persistSelf d :: markChain d ps).take k)) = true := by
    intro d ps k
    cases k with
    | zero => simpa [runEvents] using hinv
    | succ k =>
      simp only [List.take_succ_cons, runEvents, List.foldl_cons]
      have hinv' : overlayInv (applyEvent s (OvEvent.persistSelf d)) = true := by
        rw [overlayInv_iff]
        intro y hy
        simp only [applyEvent] at hy ⊢
        exact mem_setAdd.mpr (Or.inr ((overlayInv_iff s).mp hinv y hy))
      have hd : d ∈ (applyEvent s (OvEvent.persistSelf d)).hasOverlay := by
        simp only [applyEvent]
        exact mem_setAdd.mpr (Or.inl rfl)
      exact markChain_prefix_inv ps d (applyEvent s (OvEvent.persistSelf d)) hinv' hd k
  cases op with
  | materialize d ps => exact selfStep d ps k
  | postCheckoutMat d ps => exact selfStep d ps k
  | postCheckoutDemat d p ps =>
    simp only [MatOp.wf, Bool.and_eq_true, bne_iff_ne, ne_eq,
      decide_eq_true_eq] at hwf
    obtain ⟨hdp, hdps⟩ := hwf
    simp only [MatOp.trace, postCheckoutDematTrace]
    cases k with
    | zero => simpa [runEvents] using hinv
    | succ k =>
      simp only [List.take_succ_cons, runEvents, List.foldl_cons]
      set s1 := applyEvent s (OvEvent.persistUnmark p d) with hs1
      have hinv1 : overlayInv s1 = true := by
        rw [overlayInv_iff]
        intro y hy
        simp only [hs1, applyEvent] at hy ⊢
        obtain ⟨hy', _⟩ := mem_setDel.mp hy
        exact mem_setAdd.mpr (Or.inr ((overlayInv_iff s).mp hinv y hy'))
      have hp1 : p ∈ s1.hasOverlay := by
        simp only [hs1, applyEvent]
        exact mem_setAdd.mpr (Or.inl rfl)
      have hd1 : d ∉ s1.marked := by
        simp only [hs1, applyEvent]
        intro hmem
        exact (mem_setDel.mp hmem).2 rfl
      by_cases hk : k ≤ (markChain p ps).length
      · rw [List.take_append_of_le_length hk]
        exact markChain_prefix_inv ps p s1 hinv1 hp1 k
      · push_neg at hk
        have hlen : (markChain p ps ++ [OvEvent.removeSelf d]).length ≤ k := by
          simp only [List.length_append, List.length_cons, List.length_nil]
          omega
        rw [List.take_of_length_le hlen, List.foldl_append]
        simp only [List.foldl_cons, List.foldl_nil]
        show overlayInv
          (applyEvent (runEvents s1 (markChain p ps)) (OvEvent.removeSelf d)) = true
        set s2 := runEvents s1 (markChain p ps) with hs2
        have hinv2 : overlayInv s2 = true := markChain_inv ps p s1 hinv1 hp1
        have hd2 : d ∉ s2.marked := by
          intro hmem
          rcases markChain_marked_subset ps p s1 d hmem with hy | hy | hy
          · exact hd1 hy
          · exact hdp hy
          · exact hdps hy
        rw [overlayInv_iff]
        intro y hy
        simp only [applyEvent] at hy ⊢
        have hyne : y ≠ d := fun h => hd2 (h ▸ hy)
        exact mem_setDel.mpr ⟨(overlayInv_iff s2).mp hinv2 y hy, hyne⟩

/-- A complete single operation preserves the invariant. -/
theorem matOp_inv (op : MatOp) (s : OverlayState)
    (hinv : overlayInv s = true) (hwf : MatOp.wf op = true) :
    overlayInv (runEvents s (MatOp.trace op)) = true := by
  have h := matOp_prefix_inv op s hinv hwf (MatOp.trace op).length
  rwa [List.take_length] at h

/-- C1: for every materialization state change (materialize, the recursive
childMaterialized chain, and the post-checkout update), a directory's own
overlay data is written before its parent's listing is updated
(the traces put persistSelf / the child's data ahead of the parent marks, and
a dematerialized directory's data is removed only after the parent was
updated); consequently, starting from any state satisfying the overlay
invariant, every crash prefix of any sequence of such operations still
satisfies it: no reachable state has a parent recording a child as
materialized while that child has no overlay data. -/
theorem materialization_overlay_ordering :
    (∀ (ops : List MatOp) (s : OverlayState) (k : Nat),
      overlayInv s = true → (∀ op ∈ ops, MatOp.wf op = true) →
      overlayInv (runEvents s ((opsTrace ops).take k)) = true)
    ∧ (∀ (d : Nat) (ps : List Nat),
      (materializeTrace d ps).head? = some (OvEvent.persistSelf d)
      ∧ (postCheckoutMatTrace d ps).head? = some (OvEvent.persistSelf d)
      ∧ ∀ p : Nat, (postCheckoutDematTrace d p ps).getLast? = some (OvEvent.removeSelf d)) := by
  constructor
  · intro ops
    induction ops with
    | nil =>
      intro s k hinv _
      simp [opsTrace, runEvents, hinv]
    | cons op ops ih =>
      intro s k hinv hwf
      have hop : MatOp.wf op = true := hwf op (List.mem_cons_self op ops)
      have hops : ∀ o ∈ ops, MatOp.wf o = true :=
        fun o ho => hwf o (List.mem_cons_of_mem op ho)
      have htr : opsTrace (op :: ops) = MatOp.trace op ++ opsTrace ops := by
        simp [opsTrace]
      rw [htr, List.take_append_eq_append_take]
      rw [show runEvents s ((MatOp.trace op).take k
            ++ (opsTrace ops).take (k - (MatOp.trace op).length))
          = runEvents (runEvents s ((MatOp.trace op).take k))
              ((opsTrace ops).take (k - (MatOp.trace op).length)) by
        simp [runEvents, List.foldl_append]]
      by_cases hk : k ≤ (MatOp.trace op).length
      · by_cases hk' : k < (MatOp.trace op).length
        · have : k - (MatOp.trace op).length = 0 := by omega
          rw [this]
          simp only [List.take_zero, runEvents, List.foldl_nil]
          exact matOp_prefix_inv op s hinv hop k
        · have hkeq : k = (MatOp.trace op).length := by omega
          subst hkeq
          rw [List.take_length]
          exact ih (runEvents s (MatOp.trace op)) _ (matOp_inv op s hinv hop) hops
      · push_neg at hk
        rw [List.take_of_length_le (Nat.le_of_lt hk)]
        exact ih (runEvents s (MatOp.trace op)) _ (matOp_inv op s hinv hop) hops
  · intro d ps
    refine ⟨rfl, rfl, fun p => ?_⟩
    have hsplit : postCheckoutDematTrace d p ps
        = (OvEvent.persistUnmark p d :: markChain p ps) ++ [OvEvent.removeSelf d] := by
      simp [postCheckoutDematTrace]
    rw [hsplit, List.getLast?_concat]

/-- Witness for C1: from the empty overlay state, the crash prefix cut after
two of the three writes of a materialize call (self persisted, first parent
marked, second not yet) keeps the invariant. -/
theorem materialization_overlay_ordering_witness :
    overlayInv { hasOverlay := [], marked := [] } = true
    ∧ (∀ op ∈ [MatOp.materialize 5 [1, 0]], MatOp.wf op = true)
    ∧ overlayInv (runEvents { hasOverlay := [], marked := [] }
        ((opsTrace [MatOp.materialize 5 [1, 0]]).take 2)) = true :=
  ⟨by decide,
   by intro op h; rw [List.mem_singleton] at h; subst h; rfl,
   materialization_overlay_ordering.1 [MatOp.materialize 5 [1, 0]]
     { hasOverlay := [], marked := [] } 2 (by decide)
     (by intro op h; rw [List.mem_singleton] at h; subst h; rfl)⟩

theorem allMat_cons (n : DirNode) (l : List DirNode) :
    allMat (n :: l) = (n.selfMat && allMat l) := by
  simp [allMat, List.all_cons]

/-- After the childMaterialized walk, every directory on the chain is
materialized (given materialization monotonicity of the input chain, which
holds in every reachable state). -/
theorem childMaterialized_allMat (c : Nat) :
    ∀ chain : List DirNode, chainMono chain = true →
      allMat (childMaterialized c chain).1 = true := by
  intro chain
  induction chain generalizing c with
  | nil => intro _; rfl
  | cons n rest ih =>
    intro hmono
    simp only [chainMono, Bool.and_eq_true, Bool.or_eq_true, Bool.not_eq_true'] at hmono
    obtain ⟨hstep, hrest⟩ := hmono
    rw [childMaterialized]
    split
    · rename_i hcond
      rw [allMat_cons]
      have hself : n.selfMat = true := (Bool.and_eq_true _ _).mp hcond |>.1
      rcases hstep with h | h
      · exact absurd hself (by simp [h])
      · simp [hself, h]
    · rw [allMat_cons]
      simp only [Bool.true_and]
      exact ih n.ino hrest

/-- The walk saves exactly the listings of the updated prefix of the chain
(in bottom-up order), and every updated node ends up materialized with its
child entry marked. -/
theorem childMaterialized_saves (c : Nat) :
    ∀ chain : List DirNode,
      (childMaterialized c chain).2
        = ((chain.take (childMaterialized c chain).2.length).map DirNode.ino)
      ∧ ((childMaterialized c chain).1.take (childMaterialized c chain).2.length).all
          (fun n => n.selfMat && n.entryMat) = true := by
  intro chain
  induction chain generalizing c with
  | nil => exact ⟨rfl, rfl⟩
  | cons n rest ih =>
    rw [childMaterialized]
    split
    · exact ⟨rfl, rfl⟩
    · obtain ⟨ih1, ih2⟩ := ih (c := n.ino)
      constructor
      · simp only [List.length_cons, List.take_succ_cons, List.map_cons]
        rw [← ih1]
      · simp only [List.length_cons, List.take_succ_cons, List.all_cons]
        rw [Bool.and_eq_true]
        exact ⟨rfl, ih2⟩

/-- C2 counterexample: childMaterialized stops as soon as it reaches a
directory that is already materialized with the child entry already marked,
even when that directory is linked and has a parent — here the two-node
chain (both linked, the upper node not yet having its own entry marked in
any caller) returns unchanged and persists NO listing, contradicting the
claim that every call marks, persists, and recurses, stopping only at an
unlinked or parentless inode.  The input state satisfies materialization
monotonicity, so it is a reachable configuration. -/
theorem childMaterialized_counterexample :
    chainMono [⟨1, true, true, some 7⟩, ⟨0, true, false, none⟩] = true
    ∧ childMaterialized 7 [⟨1, true, true, some 7⟩, ⟨0, true, false, none⟩]
        = ([⟨1, true, true, some 7⟩, ⟨0, true, false, none⟩], [])
    ∧ (childMaterialized 7 [⟨1, true, true, some 7⟩, ⟨0, true, false, none⟩]).2 = [] := by
  refine ⟨by decide, by decide, by decide⟩

/-- C2 (amended): assuming materialization monotonicity of the current chain
(which holds in all reachable states), after childMaterialized runs every
ancestor is materialized — so the invariant "a directory with a materialized
descendant is itself materialized" is maintained; the walk persists exactly
the listings of the directories it updates, each updated directory ends up
materialized with the child entry marked; when the first directory still
needs updating, its entry is marked materialized with the child's inode
number and its listing is the first one persisted; and the walk recurses up
toward the root, stopping early exactly at a directory that is already
materialized with the child entry already marked (in addition to stopping at
an unlinked or parentless inode, where the chain ends). -/
theorem childMaterialized_chain (c : Nat) (chain : List DirNode)
    (hmono : chainMono chain = true) :
    allMat (childMaterialized c chain).1 = true
    ∧ (childMaterialized c chain).2
        = ((chain.take (childMaterialized c chain).2.length).map DirNode.ino)
    ∧ ((childMaterialized c chain).1.take (childMaterialized c chain).2.length).all
        (fun n => n.selfMat && n.entryMat) = true
    ∧ (∀ n rest, chain = n :: rest → (n.selfMat && n.entryMat) = false →
        (childMaterialized c chain).1.head?
          = some { ino := n.ino, selfMat := true, entryMat := true, entryIno := some c }
        ∧ (childMaterialized c chain).2.head? = some n.ino)
    ∧ (∀ n rest, chain = n :: rest → (n.selfMat && n.entryMat) = true →
        childMaterialized c chain = (n :: rest, [])) := by
  refine ⟨childMaterialized_allMat c chain hmono,
    (childMaterialized_saves c chain).1, (childMaterialized_saves c chain).2, ?_, ?_⟩
  · intro n rest hchain hcond
    subst hchain
    rw [childMaterialized]
    rw [if_neg (by simp [hcond])]
    exact ⟨rfl, rfl⟩
  · intro n rest hchain hcond
    subst hchain
    rw [childMaterialized]
    rw [if_pos hcond]

/-- Witness for C2 (amended): materializing a child under two not-yet
materialized ancestors updates and persists both of them. -/
theorem childMaterialized_chain_witness :
    chainMono [⟨1, false, false, none⟩, ⟨0, false, false, none⟩] = true
    ∧ allMat (childMaterialized 7 [⟨1, false, false, none⟩, ⟨0, false, false, none⟩]).1
        = true :=
  ⟨by decide,
   (childMaterialized_chain 7 [⟨1, false, false, none⟩, ⟨0, false, false, none⟩]
     (by decide)).1⟩

theorem applyScmUpdate_frame (contents : List (String × Entry)) (name : String)
    (newScm : Option TreeEntryM) (cs : List (ConflictType × String)) (x : String)
    (hname : name ≠ x) (hcs : ∀ c0 ∈ cs, c0.2 ≠ x) :
    lookupAL (applyScmUpdate contents name newScm cs).entries x = lookupAL contents x
    ∧ (∀ a ∈ (applyScmUpdate contents name newScm cs).action.toList, a.name ≠ x)
    ∧ (∀ c0 ∈ (applyScmUpdate contents name newScm cs).conflicts, c0.2 ≠ x) := by
  cases newScm with
  | none =>
    refine ⟨lookupAL_eraseAL_ne name x hname contents, ?_, hcs⟩
    intro a ha
    simp [applyScmUpdate] at ha
  | some n =>
    refine ⟨lookupAL_updateAL_ne name x (entryFromScm n) hname contents, ?_, hcs⟩
    intro a ha
    simp [applyScmUpdate] at ha

theorem pceAbsent_frame (mode : CheckoutMode) (contents : List (String × Entry))
    (oldScm newScm : Option TreeEntryM) (x : String)
    (ho : ∀ o, oldScm = some o → o.name ≠ x)
    (hn : ∀ n, newScm = some n → n.name ≠ x) :
    lookupAL (pceAbsent mode contents oldScm newScm).entries x = lookupAL contents x
    ∧ (∀ a ∈ (pceAbsent mode contents oldScm newScm).action.toList, a.name ≠ x)
    ∧ (∀ c0 ∈ (pceAbsent mode contents oldScm newScm).conflicts, c0.2 ≠ x) := by
  cases oldScm with
  | none =>
    cases newScm with
    | none => exact ⟨rfl, by simp [pceAbsent], by simp [pceAbsent]⟩
    | some n =>
      have hnx : n.name ≠ x := hn n rfl
      simp only [pceAbsent]
      split
      · exact ⟨rfl, by simp, by simp⟩
      · exact ⟨lookupAL_insertAL_ne n.name x (entryFromScm n) hnx contents, by simp, by simp⟩
  | some o =>
    have hox : o.name ≠ x := ho o rfl
    cases newScm with
    | none =>
      refine ⟨rfl, by simp [pceAbsent], ?_⟩
      intro c0 hc0
      simp only [pceAbsent, List.mem_singleton] at hc0
      subst hc0
      exact hox
    | some n =>
      have hnx : n.name ≠ x := hn n rfl
      simp only [pceAbsent]
      split
      · refine ⟨lookupAL_insertAL_ne n.name x (entryFromScm n) hnx contents, by simp, ?_⟩
        intro c0 hc0
        simp only [List.mem_singleton] at hc0
        subst hc0
        exact hox
      · refine ⟨rfl, by simp, ?_⟩
        intro c0 hc0
        simp only [List.mem_singleton] at hc0
        subst hc0
        exact hox

theorem pcePresent_frame (mode : CheckoutMode) (contents : List (String × Entry))
    (name : String) (e : Entry) (oldScm newScm : Option TreeEntryM) (x : String)
    (hname : name ≠ x) :
    lookupAL (pcePresent mode contents name e oldScm newScm).entries x = lookupAL contents x
    ∧ (∀ a ∈ (pcePresent mode contents name e oldScm newScm).action.toList, a.name ≠ x)
    ∧ (∀ c0 ∈ (pcePresent mode contents name e oldScm newScm).conflicts, c0.2 ≠ x) := by
  have hact : ∀ b : Bool, ∀ a ∈ (some (⟨name, b⟩ : CheckoutActionM)).toList, a.name ≠ x := by
    intro b a ha
    simp only [Option.toList, List.mem_singleton] at ha
    subst ha
    exact hname
  have hconf : ∀ ct : ConflictType, ∀ c0 ∈ [(ct, name)], (c0 : ConflictType × String).2 ≠ x := by
    intro ct c0 hc0
    simp only [List.mem_singleton] at hc0
    subst hc0
    exact hname
  simp only [pcePresent]
  split
  · exact ⟨rfl, hact false, by simp⟩
  · split
    · exact ⟨rfl, hact true, by simp⟩
    · split
      · rename_i ct hct
        split
        · exact ⟨rfl, hact true, by simp⟩
        · split
          · exact ⟨rfl, by simp, hconf ct⟩
          · split
            · exact ⟨rfl, by simp, hconf ct⟩
            · exact applyScmUpdate_frame contents name newScm [(ct, name)] x hname (hconf ct)
      · split
        · exact ⟨rfl, by simp, by simp⟩
        · exact applyScmUpdate_frame contents name newScm [] x hname (by simp)

theorem pceCore_frame (mode : CheckoutMode) (contents : List (String × Entry))
    (oldScm newScm : Option TreeEntryM) (name : String) (x : String)
    (hname : name ≠ x)
    (ho : ∀ o, oldScm = some o → o.name ≠ x)
    (hn : ∀ n, newScm = some n → n.name ≠ x) :
    lookupAL (pceCore mode contents oldScm newScm name).entries x = lookupAL contents x
    ∧ (∀ a ∈ (pceCore mode contents oldScm newScm name).action.toList, a.name ≠ x)
    ∧ (∀ c0 ∈ (pceCore mode contents oldScm newScm name).conflicts, c0.2 ≠ x) := by
  simp only [pceCore]
  split
  · exact ⟨rfl, by simp, by simp⟩
  · split
    · exact pceAbsent_frame mode contents oldScm newScm x ho hn
    · rename_i e heq
      exact pcePresent_frame mode contents name e oldScm newScm x hname

theorem processCheckoutEntry_frame (mode : CheckoutMode) (contents : List (String × Entry))
    (oldScm newScm : Option TreeEntryM) (x : String)
    (ho : ∀ o, oldScm = some o → o.name ≠ x)
    (hn : ∀ n, newScm = some n → n.name ≠ x) :
    lookupAL (processCheckoutEntry mode contents oldScm newScm).entries x
      = lookupAL contents x
    ∧ (∀ a ∈ (processCheckoutEntry mode contents oldScm newScm).action.toList, a.name ≠ x)
    ∧ (∀ c0 ∈ (processCheckoutEntry mode contents oldScm newScm).conflicts, c0.2 ≠ x) := by
  cases oldScm with
  | none =>
    cases newScm with
    | none =>
      exact ⟨rfl, by simp [processCheckoutEntry], by simp [processCheckoutEntry]⟩
    | some n =>
      exact pceCore_frame mode contents none (some n) n.name x (hn n rfl) ho hn
  | some o =>
    exact pceCore_frame mode contents (some o) newScm o.name x (ho o rfl) ho hn

theorem stepWalk_frame (x : String) {r : PCOut} {w : WalkOut}
    {base : List (String × Entry)}
    (hw : lookupAL w.entries x = lookupAL r.entries x
      ∧ (∀ a ∈ w.actions, a.name ≠ x) ∧ (∀ c0 ∈ w.conflicts, c0.2 ≠ x))
    (hr : lookupAL r.entries x = lookupAL base x
      ∧ (∀ a ∈ r.action.toList, a.name ≠ x) ∧ (∀ c0 ∈ r.conflicts, c0.2 ≠ x)) :
    lookupAL (stepWalk r w).entries x = lookupAL base x
    ∧ (∀ a ∈ (stepWalk r w).actions, a.name ≠ x)
    ∧ (∀ c0 ∈ (stepWalk r w).conflicts, c0.2 ≠ x) := by
  obtain ⟨hw1, hw2, hw3⟩ := hw
  obtain ⟨hr1, hr2, hr3⟩ := hr
  refine ⟨hw1.trans hr1, ?_, ?_⟩
  · intro a ha
    rcases List.mem_append.mp ha with h | h
    · exact hr2 a h
    · exact hw2 a h
  · intro c0 hc0
    rcases List.mem_append.mp hc0 with h | h
    · exact hr3 c0 h
    · exact hw3 c0 h

theorem checkoutWalk_frame (x : String) (mode : CheckoutMode) :
    ∀ (contents : List (String × Entry)) (olds news : List TreeEntryM),
      (∀ e ∈ olds, e.name ≠ x) → (∀ e ∈ news, e.name ≠ x) →
      lookupAL (checkoutWalk mode contents olds news).entries x = lookupAL contents x
      ∧ (∀ a ∈ (checkoutWalk mode contents olds news).actions, a.name ≠ x)
      ∧ (∀ c0 ∈ (checkoutWalk mode contents olds news).conflicts, c0.2 ≠ x) := by
  intro contents olds news
  induction contents, olds, news using checkoutWalk.induct mode with
  | case1 contents =>
    intro _ _
    rw [checkoutWalk]
    exact ⟨rfl, by simp, by simp⟩
  | case2 contents o os r ih =>
    intro holds hnews
    simp only [checkoutWalk]
    exact stepWalk_frame x
      (ih (fun e he => holds e (List.mem_cons_of_mem o he)) hnews)
      (processCheckoutEntry_frame mode contents (some o) none x
        (fun o' ho' => by rw [← Option.some.inj ho']; exact holds o (List.mem_cons_self o os))
        (fun n' hn' => Option.noConfusion hn'))
  | case3 contents n ns r ih =>
    intro holds hnews
    simp only [checkoutWalk]
    exact stepWalk_frame x
      (ih holds (fun e he => hnews e (List.mem_cons_of_mem n he)))
      (processCheckoutEntry_frame mode contents none (some n) x
        (fun o' ho' => Option.noConfusion ho')
        (fun n' hn' => by rw [← Option.some.inj hn']; exact hnews n (List.mem_cons_self n ns)))
  | case4 contents o os n ns hlt r ih =>
    intro holds hnews
    simp only [checkoutWalk]
    rw [if_pos hlt]
    exact stepWalk_frame x
      (ih (fun e he => holds e (List.mem_cons_of_mem o he)) hnews)
      (processCheckoutEntry_frame mode contents (some o) none x
        (fun o' ho' => by rw [← Option.some.inj ho']; exact holds o (List.mem_cons_self o os))
        (fun n' hn' => Option.noConfusion hn'))
  | case5 contents o os n ns hnlt hlt r ih =>
    intro holds hnews
    simp only [checkoutWalk]
    rw [if_neg hnlt, if_pos hlt]
    exact stepWalk_frame x
      (ih holds (fun e he => hnews e (List.mem_cons_of_mem n he)))
      (processCheckoutEntry_frame mode contents none (some n) x
        (fun o' ho' => Option.noConfusion ho')
        (fun n' hn' => by rw [← Option.some.inj hn']; exact hnews n (List.mem_cons_self n ns)))
  | case6 contents o os n ns hnlt hnlt2 r ih =>
    intro holds hnews
    simp only [checkoutWalk]
    rw [if_neg hnlt, if_neg hnlt2]
    exact stepWalk_frame x
      (ih (fun e he => holds e (List.mem_cons_of_mem o he))
        (fun e he => hnews e (List.mem_cons_of_mem n he)))
      (processCheckoutEntry_frame mode contents (some o) (some n) x
        (fun o' ho' => by rw [← Option.some.inj ho']; exact holds o (List.mem_cons_self o os))
        (fun n' hn' => by rw [← Option.some.inj hn']; exact hnews n (List.mem_cons_self n ns)))

/-- C10: a local directory entry whose name appears in neither fromTree nor
toTree is never visited by the checkout merge walk — it is left unchanged in
the entry table and produces no CheckoutAction and no conflict, in every
checkout mode (dry run, normal, force). -/
theorem checkout_frame_untracked :
    ∀ (mode : CheckoutMode) (dir : Dir) (fromTree toTree : Option Tree) (x : String),
      (∀ e ∈ scmEntries fromTree, e.name ≠ x) →
      (∀ e ∈ scmEntries toTree, e.name ≠ x) →
      lookupAL (computeCheckoutActions mode dir fromTree toTree).entries x
        = lookupAL dir.entries x
      ∧ (∀ a ∈ (computeCheckoutActions mode dir fromTree toTree).actions, a.name ≠ x)
      ∧ (∀ c0 ∈ (computeCheckoutActions mode dir fromTree toTree).conflicts, c0.2 ≠ x) := by
  intro mode dir fromTree toTree x hfrom hto
  unfold computeCheckoutActions
  split
  · split
    · exact ⟨rfl, by simp, by simp⟩
    · exact checkoutWalk_frame x mode dir.entries (scmEntries fromTree) (scmEntries toTree)
        hfrom hto
  · exact checkoutWalk_frame x mode dir.entries (scmEntries fromTree) (scmEntries toTree)
      hfrom hto

/-- Witness for C10: a local entry "z", untracked in both trees, survives a
force checkout from a one-entry tree to an empty target untouched. -/
theorem checkout_frame_untracked_witness :
    (∀ e ∈ scmEntries (some { hash := 1, entries := [⟨"a", FType.file, 7⟩] }), e.name ≠ "z")
    ∧ (∀ e ∈ scmEntries (none : Option Tree), e.name ≠ "z")
    ∧ lookupAL (computeCheckoutActions CheckoutMode.force
        { treeHash := none, entries := [("z", newFileEntry)], ts := 0 }
        (some { hash := 1, entries := [⟨"a", FType.file, 7⟩] }) none).entries "z"
      = lookupAL ({ treeHash := none, entries := [("z", newFileEntry)], ts := 0 } : Dir).entries
          "z" := by
  have h1 : ∀ e ∈ scmEntries (some { hash := 1, entries := [⟨"a", FType.file, 7⟩] }),
      e.name ≠ "z" := by
    intro e he
    simp only [scmEntries, List.mem_singleton] at he
    subst he
    decide
  have h2 : ∀ e ∈ scmEntries (none : Option Tree), e.name ≠ "z" := by
    intro e he
    simp [scmEntries] at he
  exact ⟨h1, h2,
    (checkout_frame_untracked CheckoutMode.force
      { treeHash := none, entries := [("z", newFileEntry)], ts := 0 }
      (some { hash := 1, entries := [⟨"a", FType.file, 7⟩] }) none "z" h1 h2).1⟩

end EdenFs
